import Mathlib

/-!
Verification development for the `js_lib` crate (`src/lib.rs`).

The crate exposes two thin wrapper functions over external collaborators:

* `fetch` issues an HTTP GET via `reqwest::get(url).await` and then reads the
  body via `response.text().await`, mapping every failure of either step to
  `Error::Network`.
* `from_json` delegates to `serde_json::from_str::<T>` and maps every failure
  to `Error::ParseJson`.

The shallow embedding below models the wrapper logic exactly as written in
`src/lib.rs`.  The external collaborators are modelled as follows:

* the HTTP transport outcome (the result of `reqwest::get(url).await` and of
  `response.text().await`) is an explicit input to `fetch`, since network I/O
  is environment-determined;
* the JSON codec (`serde_json::from_str`) is modelled from the spec as a
  total JSON parser over the input characters followed by a type-directed
  decode, faithful to the JSON grammar serde_json implements (RFC 8259
  whitespace, strings with escapes, numbers, arrays, objects, literals, and
  a whole-input "trailing characters" check).
-/

namespace JsLib

/-- Opaque model of `reqwest::Error`: the crate never inspects the inner
error, it only moves it around, so an abstract token with decidable equality
suffices to track that the value is passed through unmodified. -/
structure ReqwestError where
  code : Nat
deriving DecidableEq

/-- Model of `serde_json::Error`.  Modelled from the spec: serde_json is an
external dependency (not in `src/`); the spec only requires the codec to
"signal a distinguishable failure on malformed or mismatched input".  The
constructors mirror serde_json's `ErrorCode` categories that the embedded
parser below can produce. -/
inductive SerdeError where
  | eofWhileParsingValue
  | eofWhileParsingString
  | eofWhileParsingList
  | eofWhileParsingObject
  | expectedSomeValue
  | expectedSomeIdent
  | expectedColon
  | expectedListCommaOrEnd
  | expectedObjectCommaOrEnd
  | keyMustBeAString
  | trailingCharacters
  | invalidNumber
  | invalidEscape
  | controlCharacterWhileParsingString
  | unexpectedEndOfHexEscape
  | loneSurrogateInHexEscape
  | invalidType
  | recursionLimitExceeded
deriving DecidableEq

/-- The error enum of `src/lib.rs` (lines 25–31): a closed sum with exactly
the two variants `Network(reqwest::Error)` and `ParseJson(serde_json::Error)`. -/
inductive Error where
  | Network (e : ReqwestError)
  | ParseJson (e : SerdeError)
deriving DecidableEq

/-- The `Result` alias of `src/lib.rs` (line 20): `std::result::Result<T, Error>`. -/
abbrev Result (T : Type) := Except Error T

/-- Model of a `reqwest::Response` as far as `fetch` observes it: an HTTP
status code (which `fetch` never inspects) and the outcome of
`response.text().await`. -/
structure Response where
  status : Nat
  textResult : Except ReqwestError String

/-- The `fetch` function of `src/lib.rs` (lines 53–61).  The outcome of
`reqwest::get(url).await` is passed in as an explicit transport outcome,
since the network is environment-determined; the function body is the exact
double `match` of the source. -/
def fetch (getResult : Except ReqwestError Response) : Result String :=
  match getResult with
  | .ok response =>
    match response.textResult with
    | .ok data => .ok data
    | .error error => .error (Error.Network error)
  | .error error => .error (Error.Network error)

/-- JSON document model for the codec. -/
inductive JsonValue where
  | null : JsonValue
  | bool (b : Bool) : JsonValue
  | num (lexeme : String) : JsonValue
  | str (s : String) : JsonValue
  | arr (items : List JsonValue) : JsonValue
  | obj (members : List (String × JsonValue)) : JsonValue

/-- JSON insignificant whitespace (RFC 8259 / serde_json): space, tab,
line feed, carriage return. -/
def isWs (c : Char) : Bool :=
  c = ' ' || c = '\t' || c = '\n' || c = '\r'

/-- Drop leading JSON whitespace. -/
def skipWs : List Char → List Char
  | [] => []
  | c :: cs => if isWs c then skipWs cs else c :: cs

/-- Match a literal prefix (used for `null` / `true` / `false` keywords),
returning the rest of the input on success. -/
def stripPrefixChars : List Char → List Char → Option (List Char)
  | [], xs => some xs
  | _ :: _, [] => none
  | l :: ls, x :: xs => if x = l then stripPrefixChars ls xs else none

/-- Value of a hex digit in a `\uXXXX` escape. -/
def hexDigitVal (c : Char) : Option Nat :=
  if c.isDigit then some (c.toNat - 48)
  else if 'a' ≤ c && c ≤ 'f' then some (c.toNat - 87)
  else if 'A' ≤ c && c ≤ 'F' then some (c.toNat - 55)
  else none

/-- Translation of a single-character string escape. -/
def simpleEscape (c : Char) : Option Char :=
  if c = '\"' then some '\"'
  else if c = '\\' then some '\\'
  else if c = '/' then some '/'
  else if c = 'b' then some (Char.ofNat 8)
  else if c = 'f' then some (Char.ofNat 12)
  else if c = 'n' then some '\n'
  else if c = 'r' then some '\r'
  else if c = 't' then some '\t'
  else none

/-- Read four hex digits of a `\uXXXX` escape, returning the code unit and
the remaining input. -/
def parseHex4 : List Char → Option (Nat × List Char)
  | h1 :: h2 :: h3 :: h4 :: rest =>
    match hexDigitVal h1, hexDigitVal h2, hexDigitVal h3, hexDigitVal h4 with
    | some a, some b, some c, some d => some (((a * 16 + b) * 16 + c) * 16 + d, rest)
    | _, _, _, _ => none
  | _ => none

/-- Decode one string escape (the backslash already consumed): a simple
escape or a `\uXXXX` hex escape, including surrogate pairs.  Returns the
decoded character and the remaining input. -/
def unescape : List Char → Except SerdeError (Char × List Char)
  | [] => .error .eofWhileParsingString
  | e :: rest =>
    if e = 'u' then
      match parseHex4 rest with
      | none => .error .invalidEscape
      | some (n, rest2) =>
        if 0xD800 ≤ n ∧ n ≤ 0xDBFF then
          match stripPrefixChars ['\\', 'u'] rest2 with
          | none => .error .unexpectedEndOfHexEscape
          | some rest3 =>
            match parseHex4 rest3 with
            | none => .error .invalidEscape
            | some (m, rest4) =>
              if 0xDC00 ≤ m ∧ m ≤ 0xDFFF then
                .ok (Char.ofNat (0x10000 + (n - 0xD800) * 0x400 + (m - 0xDC00)), rest4)
              else .error .loneSurrogateInHexEscape
        else if 0xDC00 ≤ n ∧ n ≤ 0xDFFF then .error .loneSurrogateInHexEscape
        else .ok (Char.ofNat n, rest2)
    else
      match simpleEscape e with
      | some c => .ok (c, rest)
      | none => .error .invalidEscape

/-- Parse the body of a JSON string, the opening quote already consumed.
Returns the decoded characters and the input after the closing quote.
Fuel decreases on every consumed character; the top-level entry point
supplies enough fuel for the whole input. -/
def parseStringBody : Nat → List Char → Except SerdeError (List Char × List Char)
  | 0, _ => .error .recursionLimitExceeded
  | fuel + 1, xs =>
    match xs with
    | [] => .error .eofWhileParsingString
    | c :: rest =>
      if c = '\"' then .ok ([], rest)
      else if c = '\\' then
        match unescape rest with
        | .error e => .error e
        | .ok (c2, rest2) => (parseStringBody fuel rest2).map (fun p => (c2 :: p.1, p.2))
      else if c.toNat < 32 then .error .controlCharacterWhileParsingString
      else (parseStringBody fuel rest).map (fun p => (c :: p.1, p.2))

/-- Characters that can occur inside a JSON number lexeme. -/
def numberish (c : Char) : Bool :=
  c.isDigit || c = '-' || c = '+' || c = '.' || c = 'e' || c = 'E'

/-- Consume the integer part of a number lexeme: `0` or a nonzero digit
followed by digits (JSON forbids leading zeros). -/
def chompInt : List Char → Option (List Char)
  | [] => none
  | '0' :: r => some r
  | c :: r => if c.isDigit then some (r.dropWhile Char.isDigit) else none

/-- Consume an optional fraction part: `.` followed by at least one digit. -/
def chompFrac : List Char → Option (List Char)
  | '.' :: r =>
    match r with
    | c :: _ => if c.isDigit then some (r.dropWhile Char.isDigit) else none
    | [] => none
  | xs => some xs

/-- Consume an optional exponent part: `e`/`E`, optional sign, at least one
digit. -/
def chompExp : List Char → Option (List Char)
  | c :: r =>
    if c = 'e' || c = 'E' then
      match r with
      | '+' :: r2 =>
        match r2 with
        | c2 :: _ => if c2.isDigit then some (r2.dropWhile Char.isDigit) else none
        | [] => none
      | '-' :: r2 =>
        match r2 with
        | c2 :: _ => if c2.isDigit then some (r2.dropWhile Char.isDigit) else none
        | [] => none
      | c2 :: _ => if c2.isDigit then some (r.dropWhile Char.isDigit) else none
      | [] => none
    else some (c :: r)
  | [] => some []

/-- Whether a maximal run of number characters forms a valid JSON number:
`-? ( 0 | [1-9][0-9]* ) ( . [0-9]+ )? ( [eE][+-]?[0-9]+ )?`. -/
def numberLexemeValid (xs : List Char) : Bool :=
  let xs1 := match xs with
    | '-' :: r => r
    | _ => xs
  match chompInt xs1 with
  | none => false
  | some r1 =>
    match chompFrac r1 with
    | none => false
    | some r2 =>
      match chompExp r2 with
      | none => false
      | some r3 => r3.isEmpty

/-- Lex a JSON number: take the maximal run of number characters and check
it against the JSON number grammar. -/
def parseNumber (xs : List Char) : Except SerdeError (String × List Char) :=
  let lexeme := xs.takeWhile numberish
  if numberLexemeValid lexeme then .ok (String.mk lexeme, xs.dropWhile numberish)
  else .error .invalidNumber

/-- The continuation of the appended input cannot extend a number lexeme:
either nothing follows, or the first appended character is not a number
character. -/
def headNotNumberish : List Char → Prop
  | [] => True
  | c :: _ => numberish c = false

mutual

/-- Parse a single JSON value after skipping leading whitespace.  Modelled
from the spec: this is the syntax layer of the external JSON codec
(`serde_json::from_str`).  Fuel bounds the recursion depth, mirroring
serde_json's recursion limit; the top-level entry point supplies fuel
proportional to the input length, which is ample for every input that does
not exhaust it by nesting. -/
def parseValue : Nat → List Char → Except SerdeError (JsonValue × List Char)
  | 0, _ => .error .recursionLimitExceeded
  | fuel + 1, xs =>
    match skipWs xs with
    | [] => .error .eofWhileParsingValue
    | c :: cs =>
      if c = 'n' then
        match stripPrefixChars ['u', 'l', 'l'] cs with
        | some rest => .ok (.null, rest)
        | none => .error .expectedSomeIdent
      else if c = 't' then
        match stripPrefixChars ['r', 'u', 'e'] cs with
        | some rest => .ok (.bool true, rest)
        | none => .error .expectedSomeIdent
      else if c = 'f' then
        match stripPrefixChars ['a', 'l', 's', 'e'] cs with
        | some rest => .ok (.bool false, rest)
        | none => .error .expectedSomeIdent
      else if c = '\"' then
        (parseStringBody fuel cs).map (fun p => (.str (String.mk p.1), p.2))
      else if c = '[' then
        match skipWs cs with
        | [] => (parseArrayItems fuel cs).map (fun p => (.arr p.1, p.2))
        | c2 :: cs2 =>
          if c2 = ']' then .ok (.arr [], cs2)
          else (parseArrayItems fuel cs).map (fun p => (.arr p.1, p.2))
      else if c = '\x7b' then
        match skipWs cs with
        | [] => (parseObjectItems fuel cs).map (fun p => (.obj p.1, p.2))
        | c2 :: cs2 =>
          if c2 = '\x7d' then .ok (.obj [], cs2)
          else (parseObjectItems fuel cs).map (fun p => (.obj p.1, p.2))
      else if c = '-' ∨ c.isDigit then
        (parseNumber (c :: cs)).map (fun p => (.num p.1, p.2))
      else .error .expectedSomeValue

/-- Parse the elements of a nonempty JSON array, positioned at the first
element; consumes the closing bracket. -/
def parseArrayItems : Nat → List Char → Except SerdeError (List JsonValue × List Char)
  | 0, _ => .error .recursionLimitExceeded
  | fuel + 1, xs =>
    match parseValue fuel xs with
    | .error e => .error e
    | .ok (v, r) =>
      match skipWs r with
      | [] => .error .eofWhileParsingList
      | c :: r2 =>
        if c = ',' then
          match parseArrayItems fuel r2 with
          | .error e => .error e
          | .ok (vs, r3) => .ok (v :: vs, r3)
        else if c = ']' then .ok ([v], r2)
        else .error .expectedListCommaOrEnd

/-- Parse the members of a nonempty JSON object, positioned at the first
key; consumes the closing brace. -/
def parseObjectItems : Nat → List Char → Except SerdeError (List (String × JsonValue) × List Char)
  | 0, _ => .error .recursionLimitExceeded
  | fuel + 1, xs =>
    match skipWs xs with
    | [] => .error .eofWhileParsingObject
    | c :: cs =>
      if c = '\"' then
        match parseStringBody fuel cs with
        | .error e => .error e
        | .ok (k, r1) =>
          match skipWs r1 with
          | [] => .error .eofWhileParsingObject
          | c2 :: r2 =>
            if c2 = ':' then
              match parseValue fuel r2 with
              | .error e => .error e
              | .ok (v, r3) =>
                match skipWs r3 with
                | [] => .error .eofWhileParsingObject
                | c3 :: r4 =>
                  if c3 = ',' then
                    match parseObjectItems fuel r4 with
                    | .error e => .error e
                    | .ok (kvs, r5) => .ok ((String.mk k, v) :: kvs, r5)
                  else if c3 = '\x7d' then .ok ([(String.mk k, v)], r4)
                  else .error .expectedObjectCommaOrEnd
            else .error .expectedColon
      else .error .keyMustBeAString

end

/-- Fuel supplied to the parser by the top-level entry point: ample for any
input whose nesting depth does not exceed the recursion limit it encodes. -/
def jsonFuel (xs : List Char) : Nat :=
  3 * xs.length + 3

/-- Model of `serde_json::from_str::<T>` over the input characters,
parameterized by the type-directed decode standing for `T`'s `Deserialize`
implementation: parse exactly one JSON document, require the rest of the
input to be whitespace, then decode. -/
def from_strAux {T : Type} (decode : JsonValue → Except SerdeError T)
    (xs : List Char) : Except SerdeError T :=
  match parseValue (jsonFuel xs) xs with
  | .error e => .error e
  | .ok (v, rest) =>
    match skipWs rest with
    | [] => decode v
    | _ :: _ => .error .trailingCharacters

/-- Model of `serde_json::from_str::<T>` on a string. -/
def from_str {T : Type} (decode : JsonValue → Except SerdeError T)
    (s : String) : Except SerdeError T :=
  from_strAux decode s.data

/-- The `from_json` function of `src/lib.rs` (lines 80–86): delegate to
`serde_json::from_str::<T>` and wrap any failure in `Error::ParseJson`. -/
def from_json {T : Type} (decode : JsonValue → Except SerdeError T)
    (s : String) : Result T :=
  match from_str decode s with
  | .ok data_struct => .ok data_struct
  | .error error => .error (Error.ParseJson error)

/-- Decode of `String`: accepts exactly JSON strings. -/
def decodeString : JsonValue → Except SerdeError String
  | .str s => .ok s
  | _ => .error .invalidType

/-- Decode of the elements of a `Vec<String>`. -/
def decodeStrings : List JsonValue → Except SerdeError (List String)
  | [] => .ok []
  | .str s :: vs =>
    match decodeStrings vs with
    | .ok l => .ok (s :: l)
    | .error e => .error e
  | _ :: _ => .error .invalidType

/-- Decode of `Vec<String>`: accepts exactly JSON arrays of strings. -/
def decodeListString : JsonValue → Except SerdeError (List String)
  | .arr vs => decodeStrings vs
  | _ => .error .invalidType

/-- Decode of `serde_json::Number` (a decodable target type), represented by
its lexeme: accepts exactly JSON numbers. -/
def decodeNumberLexeme : JsonValue → Except SerdeError String
  | .num m => .ok m
  | _ => .error .invalidType

/-! ### Lemmas about whitespace skipping -/

theorem skipWs_append_cons {xs ys cs : List Char} {c : Char}
    (h : skipWs xs = c :: cs) : skipWs (xs ++ ys) = c :: (cs ++ ys) := by
  induction xs with
  | nil => simp [skipWs] at h
  | cons a t ih =>
    simp only [skipWs] at h
    split at h
    · rw [List.cons_append, skipWs]
      simp_all
    · rw [List.cons_append, skipWs]
      simp_all

theorem skipWs_append_of_nil {xs : List Char}
    (h : skipWs xs = []) (ys : List Char) : skipWs (xs ++ ys) = skipWs ys := by
  induction xs with
  | nil => simp
  | cons a t ih =>
    simp only [skipWs] at h
    split at h
    · rw [List.cons_append, skipWs]
      simp_all
    · exact absurd h (by simp)

theorem skipWs_wsLeft {w : List Char} (h : ∀ c ∈ w, isWs c = true)
    (xs : List Char) : skipWs (w ++ xs) = skipWs xs := by
  induction w with
  | nil => simp
  | cons a t ih =>
    simp only [List.cons_append]
    rw [skipWs]
    have ha : isWs a = true := h a (by simp)
    simp only [ha, if_true]
    exact ih (fun c hc => h c (by simp [hc]))

theorem skipWs_eq_nil_of_allWs {w : List Char} (h : ∀ c ∈ w, isWs c = true) :
    skipWs w = [] := by
  have := skipWs_wsLeft h []
  simpa using this

theorem allWs_of_skipWs_eq_nil {xs : List Char} (h : skipWs xs = []) :
    ∀ c ∈ xs, isWs c = true := by
  induction xs with
  | nil => simp
  | cons a t ih =>
    simp only [skipWs] at h
    split at h
    · intro c hc
      rw [List.mem_cons] at hc
      rcases hc with hc | hc
      · simp_all
      · exact ih h c hc
    · exact absurd h (by simp)

theorem skipWs_ne_nil_cons {xs : List Char} {c : Char} {cs : List Char}
    (h : skipWs xs = c :: cs) : xs ≠ [] := by
  intro hx
  subst hx
  simp [skipWs] at h

/-! ### Lemmas about literal prefixes -/

theorem stripPrefixChars_append {l xs r : List Char}
    (h : stripPrefixChars l xs = some r) (ys : List Char) :
    stripPrefixChars l (xs ++ ys) = some (r ++ ys) := by
  induction l generalizing xs with
  | nil =>
    simp only [stripPrefixChars] at h
    cases h
    rfl
  | cons a t ih =>
    cases xs with
    | nil => simp [stripPrefixChars] at h
    | cons x xt =>
      simp only [stripPrefixChars] at h
      split at h
      · rw [List.cons_append, stripPrefixChars]
        simp_all
      · exact absurd h (by simp)

/-! ### Lemmas about string parsing -/

theorem parseHex4_append {xs r : List Char} {n : Nat}
    (h : parseHex4 xs = some (n, r)) (ys : List Char) :
    parseHex4 (xs ++ ys) = some (n, r ++ ys) := by
  match xs with
  | [] => simp [parseHex4] at h
  | [h1] => simp [parseHex4] at h
  | [h1, h2] => simp [parseHex4] at h
  | [h1, h2, h3] => simp [parseHex4] at h
  | h1 :: h2 :: h3 :: h4 :: rest =>
    simp only [List.cons_append]
    simp only [parseHex4] at h ⊢
    split at h
    · simp_all
    · exact absurd h (by simp)

theorem unescape_append {xs r : List Char} {c : Char}
    (h : unescape xs = .ok (c, r)) (ys : List Char) :
    unescape (xs ++ ys) = .ok (c, r ++ ys) := by
  cases xs with
  | nil => simp [unescape] at h
  | cons e rest =>
    rw [List.cons_append]
    simp only [unescape] at h ⊢
    by_cases he : e = 'u'
    · rw [if_pos he] at h ⊢
      cases hp : parseHex4 rest with
      | none => rw [hp] at h; simp at h
      | some p =>
        obtain ⟨n, rest2⟩ := p
        rw [hp] at h
        rw [parseHex4_append hp ys]
        dsimp only at h ⊢
        by_cases hsur : 0xD800 ≤ n ∧ n ≤ 0xDBFF
        · rw [if_pos hsur] at h ⊢
          cases hs : stripPrefixChars ['\\', 'u'] rest2 with
          | none => rw [hs] at h; simp at h
          | some rest3 =>
            rw [hs] at h
            rw [stripPrefixChars_append hs ys]
            dsimp only at h ⊢
            cases hp2 : parseHex4 rest3 with
            | none => rw [hp2] at h; simp at h
            | some q =>
              obtain ⟨m, rest4⟩ := q
              rw [hp2] at h
              rw [parseHex4_append hp2 ys]
              dsimp only at h ⊢
              by_cases hsur2 : 0xDC00 ≤ m ∧ m ≤ 0xDFFF
              · rw [if_pos hsur2] at h ⊢
                simp only [Except.ok.injEq, Prod.mk.injEq] at h
                simp [h.1, h.2]
              · rw [if_neg hsur2] at h; simp at h
        · rw [if_neg hsur] at h ⊢
          by_cases hsur2 : 0xDC00 ≤ n ∧ n ≤ 0xDFFF
          · rw [if_pos hsur2] at h; simp at h
          · rw [if_neg hsur2] at h ⊢
            simp only [Except.ok.injEq, Prod.mk.injEq] at h
            simp [h.1, h.2]
    · rw [if_neg he] at h ⊢
      cases hse : simpleEscape e with
      | none => rw [hse] at h; simp at h
      | some c0 =>
        rw [hse] at h
        dsimp only at h ⊢
        simp_all

theorem parseStringBody_mono : ∀ (f : Nat) (xs : List Char), ∀ f', f ≤ f' →
    ∀ p, parseStringBody f xs = .ok p → parseStringBody f' xs = .ok p := by
  intro f xs
  induction f, xs using parseStringBody.induct with
  | case1 xs =>
    intro f' _ p h
    simp [parseStringBody] at h
  | case2 fuel =>
    intro f' hle p h
    match f' with
    | g + 1 => simp [parseStringBody] at h
  | case3 fuel cs =>
    intro f' hle p h
    match f' with
    | g + 1 =>
      simp only [parseStringBody] at h ⊢
      rw [if_pos trivial] at h ⊢
      exact h
  | case4 fuel cs e hu _ =>
    intro f' hle p h
    simp only [parseStringBody] at h
    rw [if_neg (by decide : ¬ ('\\' : Char) = '\"'), if_pos trivial, hu] at h
    exact absurd h (by simp)
  | case5 fuel cs c2 rest2 hu _ ih =>
    intro f' hle p h
    match f' with
    | g + 1 =>
      have hg : fuel ≤ g := by omega
      simp only [parseStringBody] at h ⊢
      rw [if_neg (by decide : ¬ ('\\' : Char) = '\"'), if_pos trivial, hu] at h ⊢
      dsimp only at h ⊢
      cases hq : parseStringBody fuel rest2 with
      | error e => rw [hq] at h; exact absurd h (by simp [Except.map])
      | ok q =>
        rw [hq] at h
        rw [ih g hg q hq]
        exact h
  | case6 fuel c cs h1 h2 h3 =>
    intro f' hle p h
    simp only [parseStringBody] at h
    rw [if_neg h1, if_neg h2, if_pos h3] at h
    exact absurd h (by simp)
  | case7 fuel c cs h1 h2 h3 ih =>
    intro f' hle p h
    match f' with
    | g + 1 =>
      have hg : fuel ≤ g := by omega
      simp only [parseStringBody] at h ⊢
      rw [if_neg h1, if_neg h2, if_neg h3] at h ⊢
      cases hq : parseStringBody fuel cs with
      | error e => rw [hq] at h; exact absurd h (by simp [Except.map])
      | ok q =>
        rw [hq] at h
        rw [ih g hg q hq]
        exact h

theorem parseStringBody_append : ∀ (f : Nat) (xs : List Char), ∀ s r,
    parseStringBody f xs = .ok (s, r) → ∀ ys,
    parseStringBody f (xs ++ ys) = .ok (s, r ++ ys) := by
  intro f xs
  induction f, xs using parseStringBody.induct with
  | case1 xs =>
    intro s r h
    simp [parseStringBody] at h
  | case2 fuel =>
    intro s r h
    simp [parseStringBody] at h
  | case3 fuel cs =>
    intro s r h ys
    rw [List.cons_append]
    simp only [parseStringBody] at h ⊢
    rw [if_pos trivial] at h ⊢
    simp only [Except.ok.injEq, Prod.mk.injEq] at h ⊢
    obtain ⟨h1, h2⟩ := h
    subst h1
    subst h2
    exact ⟨rfl, rfl⟩
  | case4 fuel cs e hu _ =>
    intro s r h
    simp only [parseStringBody] at h
    rw [if_neg (by decide : ¬ ('\\' : Char) = '\"'), if_pos trivial, hu] at h
    exact absurd h (by simp)
  | case5 fuel cs c2 rest2 hu _ ih =>
    intro s r h ys
    rw [List.cons_append]
    simp only [parseStringBody] at h ⊢
    rw [if_neg (by decide : ¬ ('\\' : Char) = '\"'), if_pos trivial] at h ⊢
    rw [hu] at h
    rw [unescape_append hu ys]
    dsimp only at h ⊢
    cases hq : parseStringBody fuel rest2 with
    | error e => rw [hq] at h; exact absurd h (by simp [Except.map])
    | ok q =>
      obtain ⟨s2, r2⟩ := q
      rw [hq] at h
      rw [ih s2 r2 hq ys]
      simp only [Except.map, Except.ok.injEq, Prod.mk.injEq] at h ⊢
      simp_all
  | case6 fuel c cs h1 h2 h3 =>
    intro s r h
    simp only [parseStringBody] at h
    rw [if_neg h1, if_neg h2, if_pos h3] at h
    exact absurd h (by simp)
  | case7 fuel c cs h1 h2 h3 ih =>
    intro s r h ys
    rw [List.cons_append]
    simp only [parseStringBody] at h ⊢
    rw [if_neg h1, if_neg h2, if_neg h3] at h ⊢
    cases hq : parseStringBody fuel cs with
    | error e => rw [hq] at h; exact absurd h (by simp [Except.map])
    | ok q =>
      obtain ⟨s2, r2⟩ := q
      rw [hq] at h
      rw [ih s2 r2 hq ys]
      simp only [Except.map, Except.ok.injEq, Prod.mk.injEq] at h ⊢
      simp_all

/-! ### Lemmas about number lexing -/

theorem dropWhile_append_cons {p : Char → Bool} {xs r : List Char} {a : Char}
    (h : xs.dropWhile p = a :: r) (ys : List Char) :
    (xs ++ ys).dropWhile p = a :: (r ++ ys) ∧
    (xs ++ ys).takeWhile p = xs.takeWhile p := by
  induction xs with
  | nil => simp at h
  | cons b t ih =>
    rw [List.dropWhile_cons] at h
    rw [List.cons_append]
    by_cases hb : p b = true
    · rw [if_pos hb] at h
      obtain ⟨h1, h2⟩ := ih h
      refine ⟨?_, ?_⟩
      · rw [List.dropWhile_cons, if_pos hb]
        exact h1
      · rw [List.takeWhile_cons, List.takeWhile_cons p b t, if_pos hb, if_pos hb, h2]
    · rw [if_neg hb] at h
      injection h with hba htr
      subst hba
      subst htr
      refine ⟨?_, ?_⟩
      · rw [List.dropWhile_cons, if_neg hb]
      · have hb' : p b = false := by simpa using hb
        simp [List.takeWhile_cons, hb']

theorem dropWhile_append_nil {p : Char → Bool} {xs : List Char}
    (h : xs.dropWhile p = []) (ys : List Char) :
    (xs ++ ys).dropWhile p = ys.dropWhile p ∧
    (xs ++ ys).takeWhile p = xs ++ ys.takeWhile p := by
  induction xs with
  | nil => simp
  | cons b t ih =>
    rw [List.dropWhile_cons] at h
    rw [List.cons_append]
    by_cases hb : p b = true
    · rw [if_pos hb] at h
      obtain ⟨h1, h2⟩ := ih h
      refine ⟨?_, ?_⟩
      · rw [List.dropWhile_cons, if_pos hb]
        exact h1
      · rw [List.takeWhile_cons, if_pos hb, h2, List.cons_append]
    · rw [if_neg hb] at h
      simp at h

theorem parseNumber_append {xs r : List Char} {m : String}
    (h : parseNumber xs = .ok (m, r)) (ys : List Char)
    (hg : r ≠ [] ∨ headNotNumberish ys) :
    parseNumber (xs ++ ys) = .ok (m, r ++ ys) := by
  unfold parseNumber at h ⊢
  dsimp only at h ⊢
  by_cases hv : numberLexemeValid (xs.takeWhile numberish) = true
  · rw [if_pos hv] at h
    simp only [Except.ok.injEq, Prod.mk.injEq] at h
    obtain ⟨hm, hr⟩ := h
    cases hdw : xs.dropWhile numberish with
    | cons a t =>
      obtain ⟨h1, h2⟩ := dropWhile_append_cons hdw ys
      rw [h2, if_pos hv, h1]
      rw [hdw] at hr
      subst hr
      simp [hm]
    | nil =>
      rw [hdw] at hr
      subst hr
      rcases hg with hg | hg
      · exact absurd rfl hg
      · obtain ⟨h1, h2⟩ := dropWhile_append_nil hdw ys
        have hy : ys.takeWhile numberish = [] ∧ ys.dropWhile numberish = ys := by
          cases ys with
          | nil => simp
          | cons c t =>
            simp only [headNotNumberish] at hg
            rw [List.takeWhile_cons, List.dropWhile_cons]
            simp [hg]
        have hxs : xs.takeWhile numberish = xs := by
          have hsplit := List.takeWhile_append_dropWhile numberish xs
          rw [hdw, List.append_nil] at hsplit
          exact hsplit
        rw [hxs] at hv hm
        rw [h2, hy.1, List.append_nil, if_pos hv, h1, hy.2]
        simp [hm]
  · rw [if_neg hv] at h
    exact absurd h (by simp)

/-! ### Fuel monotonicity of the mutual parser -/

theorem parse_mono : ∀ (f f' : Nat), f ≤ f' → ∀ xs,
    (∀ v r, parseValue f xs = .ok (v, r) → parseValue f' xs = .ok (v, r)) ∧
    (∀ vs r, parseArrayItems f xs = .ok (vs, r) → parseArrayItems f' xs = .ok (vs, r)) ∧
    (∀ kvs r, parseObjectItems f xs = .ok (kvs, r) → parseObjectItems f' xs = .ok (kvs, r)) := by
  intro f
  induction f with
  | zero =>
    intro f' _ xs
    refine ⟨?_, ?_, ?_⟩ <;> intro a r h <;>
      simp [parseValue, parseArrayItems, parseObjectItems] at h
  | succ g ih =>
    intro f' hle xs
    cases f' with
    | zero => exact absurd hle (by omega)
    | succ g' =>
    have hgg : g ≤ g' := by omega
    refine ⟨?_, ?_, ?_⟩
    · intro v r h
      simp only [parseValue] at h ⊢
      cases hsw : skipWs xs with
      | nil => rw [hsw] at h; exact absurd h (by simp)
      | cons c cs =>
        rw [hsw] at h
        dsimp only at h ⊢
        by_cases hn : c = 'n'
        · rw [if_pos hn] at h ⊢
          exact h
        · rw [if_neg hn] at h ⊢
          by_cases ht : c = 't'
          · rw [if_pos ht] at h ⊢
            exact h
          · rw [if_neg ht] at h ⊢
            by_cases hf : c = 'f'
            · rw [if_pos hf] at h ⊢
              exact h
            · rw [if_neg hf] at h ⊢
              by_cases hq : c = '\"'
              · rw [if_pos hq] at h ⊢
                cases hsb : parseStringBody g cs with
                | error e => rw [hsb] at h; exact absurd h (by simp [Except.map])
                | ok p =>
                  rw [hsb] at h
                  rw [parseStringBody_mono g cs g' hgg p hsb]
                  exact h
              · rw [if_neg hq] at h ⊢
                by_cases hbr : c = '['
                · rw [if_pos hbr] at h ⊢
                  cases hsw2 : skipWs cs with
                  | nil =>
                    rw [hsw2] at h
                    dsimp only at h ⊢
                    cases hit : parseArrayItems g cs with
                    | error e => rw [hit] at h; exact absurd h (by simp [Except.map])
                    | ok p =>
                      obtain ⟨vs0, r0⟩ := p
                      rw [hit] at h
                      rw [(ih g' hgg cs).2.1 vs0 r0 hit]
                      exact h
                  | cons c2 cs2 =>
                    rw [hsw2] at h
                    dsimp only at h ⊢
                    by_cases hc2 : c2 = ']'
                    · rw [if_pos hc2] at h ⊢
                      exact h
                    · rw [if_neg hc2] at h ⊢
                      cases hit : parseArrayItems g cs with
                      | error e => rw [hit] at h; exact absurd h (by simp [Except.map])
                      | ok p =>
                        obtain ⟨vs0, r0⟩ := p
                        rw [hit] at h
                        rw [(ih g' hgg cs).2.1 vs0 r0 hit]
                        exact h
                · rw [if_neg hbr] at h ⊢
                  by_cases hbc : c = '\x7b'
                  · rw [if_pos hbc] at h ⊢
                    cases hsw2 : skipWs cs with
                    | nil =>
                      rw [hsw2] at h
                      dsimp only at h ⊢
                      cases hit : parseObjectItems g cs with
                      | error e => rw [hit] at h; exact absurd h (by simp [Except.map])
                      | ok p =>
                        obtain ⟨kvs0, r0⟩ := p
                        rw [hit] at h
                        rw [(ih g' hgg cs).2.2 kvs0 r0 hit]
                        exact h
                    | cons c2 cs2 =>
                      rw [hsw2] at h
                      dsimp only at h ⊢
                      by_cases hc2 : c2 = '\x7d'
                      · rw [if_pos hc2] at h ⊢
                        exact h
                      · rw [if_neg hc2] at h ⊢
                        cases hit : parseObjectItems g cs with
                        | error e => rw [hit] at h; exact absurd h (by simp [Except.map])
                        | ok p =>
                          obtain ⟨kvs0, r0⟩ := p
                          rw [hit] at h
                          rw [(ih g' hgg cs).2.2 kvs0 r0 hit]
                          exact h
                  · rw [if_neg hbc] at h ⊢
                    by_cases hnum : c = '-' ∨ c.isDigit = true
                    · rw [if_pos hnum] at h ⊢
                      exact h
                    · rw [if_neg hnum] at h
                      exact absurd h (by simp)
    · intro vs r h
      simp only [parseArrayItems] at h ⊢
      cases hpv : parseValue g xs with
      | error e => rw [hpv] at h; exact absurd h (by simp)
      | ok q =>
        obtain ⟨v, r0⟩ := q
        rw [hpv] at h
        rw [(ih g' hgg xs).1 v r0 hpv]
        dsimp only at h ⊢
        cases hsw : skipWs r0 with
        | nil => rw [hsw] at h; exact absurd h (by simp)
        | cons c r2 =>
          rw [hsw] at h
          dsimp only at h ⊢
          by_cases hc : c = ','
          · rw [if_pos hc] at h ⊢
            cases hit : parseArrayItems g r2 with
            | error e => rw [hit] at h; exact absurd h (by simp)
            | ok q2 =>
              obtain ⟨vs2, r3⟩ := q2
              rw [hit] at h
              rw [(ih g' hgg r2).2.1 vs2 r3 hit]
              exact h
          · rw [if_neg hc] at h ⊢
            by_cases hc2 : c = ']'
            · rw [if_pos hc2] at h ⊢
              exact h
            · rw [if_neg hc2] at h
              exact absurd h (by simp)
    · intro kvs r h
      simp only [parseObjectItems] at h ⊢
      cases hsw : skipWs xs with
      | nil => rw [hsw] at h; exact absurd h (by simp)
      | cons c cs =>
        rw [hsw] at h
        dsimp only at h ⊢
        by_cases hq : c = '\"'
        · rw [if_pos hq] at h ⊢
          cases hsb : parseStringBody g cs with
          | error e => rw [hsb] at h; exact absurd h (by simp)
          | ok p =>
            obtain ⟨k, r1⟩ := p
            rw [hsb] at h
            rw [parseStringBody_mono g cs g' hgg (k, r1) hsb]
            dsimp only at h ⊢
            cases hsw2 : skipWs r1 with
            | nil => rw [hsw2] at h; exact absurd h (by simp)
            | cons c2 r2 =>
              rw [hsw2] at h
              dsimp only at h ⊢
              by_cases hcol : c2 = ':'
              · rw [if_pos hcol] at h ⊢
                cases hpv : parseValue g r2 with
                | error e => rw [hpv] at h; exact absurd h (by simp)
                | ok q =>
                  obtain ⟨v, r3⟩ := q
                  rw [hpv] at h
                  rw [(ih g' hgg r2).1 v r3 hpv]
                  dsimp only at h ⊢
                  cases hsw3 : skipWs r3 with
                  | nil => rw [hsw3] at h; exact absurd h (by simp)
                  | cons c3 r4 =>
                    rw [hsw3] at h
                    dsimp only at h ⊢
                    by_cases hcm : c3 = ','
                    · rw [if_pos hcm] at h ⊢
                      cases hoi : parseObjectItems g r4 with
                      | error e => rw [hoi] at h; exact absurd h (by simp)
                      | ok q2 =>
                        obtain ⟨kvs2, r5⟩ := q2
                        rw [hoi] at h
                        rw [(ih g' hgg r4).2.2 kvs2 r5 hoi]
                        exact h
                    · rw [if_neg hcm] at h ⊢
                      by_cases hbc : c3 = '\x7d'
                      · rw [if_pos hbc] at h ⊢
                        exact h
                      · rw [if_neg hbc] at h
                        exact absurd h (by simp)
              · rw [if_neg hcol] at h
                exact absurd h (by simp)
        · rw [if_neg hq] at h
          exact absurd h (by simp)

/-! ### The parser consumes only a meaningful prefix: inversion helpers -/

theorem parseValue_ok_skip_ne {g : Nat} {xs : List Char}
    {p : JsonValue × List Char}
    (h : parseValue g xs = .ok p) : skipWs xs ≠ [] := by
  intro hnil
  cases g with
  | zero => simp [parseValue] at h
  | succ g2 =>
    simp only [parseValue] at h
    rw [hnil] at h
    simp at h

theorem parseArrayItems_ok_skip_ne {g : Nat} {xs : List Char}
    {p : List JsonValue × List Char}
    (h : parseArrayItems g xs = .ok p) : skipWs xs ≠ [] := by
  intro hnil
  cases g with
  | zero => simp [parseArrayItems] at h
  | succ g2 =>
    simp only [parseArrayItems] at h
    cases hpv : parseValue g2 xs with
    | error e => rw [hpv] at h; simp at h
    | ok q => exact (parseValue_ok_skip_ne hpv) hnil

theorem parseObjectItems_ok_skip_ne {g : Nat} {xs : List Char}
    {p : List (String × JsonValue) × List Char}
    (h : parseObjectItems g xs = .ok p) : skipWs xs ≠ [] := by
  intro hnil
  cases g with
  | zero => simp [parseObjectItems] at h
  | succ g2 =>
    simp only [parseObjectItems] at h
    rw [hnil] at h
    simp at h

/-! ### Input-extension property of the parser

A successful parse is unaffected by appending further input, provided the
appended characters cannot merge with the final token.  Only a top-level
number token can merge with appended characters; arrays, objects, strings
and literals end in a closing delimiter or a fixed keyword. -/

theorem parse_append : ∀ (f : Nat) (xs ys : List Char),
    (∀ v r, parseValue f xs = .ok (v, r) →
      (r ≠ [] ∨ (∀ lex, v ≠ .num lex) ∨ headNotNumberish ys) →
      parseValue f (xs ++ ys) = .ok (v, r ++ ys)) ∧
    (∀ vs r, parseArrayItems f xs = .ok (vs, r) →
      parseArrayItems f (xs ++ ys) = .ok (vs, r ++ ys)) ∧
    (∀ kvs r, parseObjectItems f xs = .ok (kvs, r) →
      parseObjectItems f (xs ++ ys) = .ok (kvs, r ++ ys)) := by
  intro f
  induction f with
  | zero =>
    intro xs ys
    refine ⟨?_, ?_, ?_⟩ <;> intro a r h <;>
      simp [parseValue, parseArrayItems, parseObjectItems] at h
  | succ g ih =>
    intro xs ys
    refine ⟨?_, ?_, ?_⟩
    · intro v r h hguard
      simp only [parseValue] at h ⊢
      cases hsw : skipWs xs with
      | nil => rw [hsw] at h; exact absurd h (by simp)
      | cons c cs =>
        rw [hsw] at h
        rw [skipWs_append_cons hsw]
        dsimp only at h ⊢
        by_cases hn : c = 'n'
        · rw [if_pos hn] at h ⊢
          cases hsp : stripPrefixChars ['u', 'l', 'l'] cs with
          | none => rw [hsp] at h; exact absurd h (by simp)
          | some rest =>
            rw [hsp] at h
            rw [stripPrefixChars_append hsp ys]
            dsimp only at h ⊢
            simp only [Except.ok.injEq, Prod.mk.injEq] at h ⊢
            obtain ⟨h1, h2⟩ := h
            subst h1
            subst h2
            exact ⟨rfl, rfl⟩
        · rw [if_neg hn] at h ⊢
          by_cases ht : c = 't'
          · rw [if_pos ht] at h ⊢
            cases hsp : stripPrefixChars ['r', 'u', 'e'] cs with
            | none => rw [hsp] at h; exact absurd h (by simp)
            | some rest =>
              rw [hsp] at h
              rw [stripPrefixChars_append hsp ys]
              dsimp only at h ⊢
              simp only [Except.ok.injEq, Prod.mk.injEq] at h ⊢
              obtain ⟨h1, h2⟩ := h
              subst h1
              subst h2
              exact ⟨rfl, rfl⟩
          · rw [if_neg ht] at h ⊢
            by_cases hf : c = 'f'
            · rw [if_pos hf] at h ⊢
              cases hsp : stripPrefixChars ['a', 'l', 's', 'e'] cs with
              | none => rw [hsp] at h; exact absurd h (by simp)
              | some rest =>
                rw [hsp] at h
                rw [stripPrefixChars_append hsp ys]
                dsimp only at h ⊢
                simp only [Except.ok.injEq, Prod.mk.injEq] at h ⊢
                obtain ⟨h1, h2⟩ := h
                subst h1
                subst h2
                exact ⟨rfl, rfl⟩
            · rw [if_neg hf] at h ⊢
              by_cases hq : c = '\"'
              · rw [if_pos hq] at h ⊢
                cases hsb : parseStringBody g cs with
                | error e => rw [hsb] at h; exact absurd h (by simp [Except.map])
                | ok p =>
                  obtain ⟨s2, r2⟩ := p
                  rw [hsb] at h
                  rw [parseStringBody_append g cs s2 r2 hsb ys]
                  simp only [Except.map, Except.ok.injEq, Prod.mk.injEq] at h ⊢
                  obtain ⟨h1, h2⟩ := h
                  subst h1
                  subst h2
                  exact ⟨rfl, rfl⟩
              · rw [if_neg hq] at h ⊢
                by_cases hbr : c = '['
                · rw [if_pos hbr] at h ⊢
                  cases hsw2 : skipWs cs with
                  | nil =>
                    rw [hsw2] at h
                    dsimp only at h
                    cases hit : parseArrayItems g cs with
                    | error e => rw [hit] at h; exact absurd h (by simp [Except.map])
                    | ok p => exact absurd hsw2 (parseArrayItems_ok_skip_ne hit)
                  | cons c2 cs2 =>
                    rw [hsw2] at h
                    rw [skipWs_append_cons hsw2]
                    dsimp only at h ⊢
                    by_cases hc2 : c2 = ']'
                    · rw [if_pos hc2] at h ⊢
                      simp only [Except.ok.injEq, Prod.mk.injEq] at h ⊢
                      obtain ⟨h1, h2⟩ := h
                      subst h1
                      subst h2
                      exact ⟨rfl, rfl⟩
                    · rw [if_neg hc2] at h ⊢
                      cases hit : parseArrayItems g cs with
                      | error e => rw [hit] at h; exact absurd h (by simp [Except.map])
                      | ok p =>
                        obtain ⟨vs0, r0⟩ := p
                        rw [hit] at h
                        rw [(ih cs ys).2.1 vs0 r0 hit]
                        simp only [Except.map, Except.ok.injEq, Prod.mk.injEq] at h ⊢
                        obtain ⟨h1, h2⟩ := h
                        subst h1
                        subst h2
                        exact ⟨rfl, rfl⟩
                · rw [if_neg hbr] at h ⊢
                  by_cases hbc : c = '\x7b'
                  · rw [if_pos hbc] at h ⊢
                    cases hsw2 : skipWs cs with
                    | nil =>
                      rw [hsw2] at h
                      dsimp only at h
                      cases hit : parseObjectItems g cs with
                      | error e => rw [hit] at h; exact absurd h (by simp [Except.map])
                      | ok p => exact absurd hsw2 (parseObjectItems_ok_skip_ne hit)
                    | cons c2 cs2 =>
                      rw [hsw2] at h
                      rw [skipWs_append_cons hsw2]
                      dsimp only at h ⊢
                      by_cases hc2 : c2 = '\x7d'
                      · rw [if_pos hc2] at h ⊢
                        simp only [Except.ok.injEq, Prod.mk.injEq] at h ⊢
                        obtain ⟨h1, h2⟩ := h
                        subst h1
                        subst h2
                        exact ⟨rfl, rfl⟩
                      · rw [if_neg hc2] at h ⊢
                        cases hit : parseObjectItems g cs with
                        | error e => rw [hit] at h; exact absurd h (by simp [Except.map])
                        | ok p =>
                          obtain ⟨kvs0, r0⟩ := p
                          rw [hit] at h
                          rw [(ih cs ys).2.2 kvs0 r0 hit]
                          simp only [Except.map, Except.ok.injEq, Prod.mk.injEq] at h ⊢
                          obtain ⟨h1, h2⟩ := h
                          subst h1
                          subst h2
                          exact ⟨rfl, rfl⟩
                  · rw [if_neg hbc] at h ⊢
                    by_cases hnum : c = '-' ∨ c.isDigit = true
                    · rw [if_pos hnum] at h ⊢
                      cases hpn : parseNumber (c :: cs) with
                      | error e => rw [hpn] at h; exact absurd h (by simp [Except.map])
                      | ok p =>
                        obtain ⟨lex0, r0⟩ := p
                        rw [hpn] at h
                        simp only [Except.map, Except.ok.injEq, Prod.mk.injEq] at h
                        obtain ⟨h1, h2⟩ := h
                        subst h1
                        subst h2
                        have hdisj : r0 ≠ [] ∨ headNotNumberish ys := by
                          rcases hguard with hg | hg | hg
                          · exact Or.inl hg
                          · exact absurd rfl (hg lex0)
                          · exact Or.inr hg
                        have hext := parseNumber_append hpn ys hdisj
                        rw [List.cons_append] at hext
                        rw [hext]
                        rfl
                    · rw [if_neg hnum] at h
                      exact absurd h (by simp)
    · intro vs r h
      simp only [parseArrayItems] at h ⊢
      cases hpv : parseValue g xs with
      | error e => rw [hpv] at h; exact absurd h (by simp)
      | ok q =>
        obtain ⟨v, r0⟩ := q
        rw [hpv] at h
        dsimp only at h
        cases hsw : skipWs r0 with
        | nil => rw [hsw] at h; exact absurd h (by simp)
        | cons c r2 =>
          have hr0 : r0 ≠ [] := skipWs_ne_nil_cons hsw
          rw [(ih xs ys).1 v r0 hpv (Or.inl hr0)]
          dsimp only
          rw [hsw] at h
          rw [skipWs_append_cons hsw]
          dsimp only at h ⊢
          by_cases hc : c = ','
          · rw [if_pos hc] at h ⊢
            cases hit : parseArrayItems g r2 with
            | error e => rw [hit] at h; exact absurd h (by simp)
            | ok q2 =>
              obtain ⟨vs2, r3⟩ := q2
              rw [hit] at h
              rw [(ih r2 ys).2.1 vs2 r3 hit]
              dsimp only at h ⊢
              simp only [Except.ok.injEq, Prod.mk.injEq] at h ⊢
              obtain ⟨h1, h2⟩ := h
              subst h1
              subst h2
              exact ⟨rfl, rfl⟩
          · rw [if_neg hc] at h ⊢
            by_cases hc2 : c = ']'
            · rw [if_pos hc2] at h ⊢
              simp only [Except.ok.injEq, Prod.mk.injEq] at h ⊢
              obtain ⟨h1, h2⟩ := h
              subst h1
              subst h2
              exact ⟨rfl, rfl⟩
            · rw [if_neg hc2] at h
              exact absurd h (by simp)
    · intro kvs r h
      simp only [parseObjectItems] at h ⊢
      cases hsw : skipWs xs with
      | nil => rw [hsw] at h; exact absurd h (by simp)
      | cons c cs =>
        rw [hsw] at h
        rw [skipWs_append_cons hsw]
        dsimp only at h ⊢
        by_cases hq : c = '\"'
        · rw [if_pos hq] at h ⊢
          cases hsb : parseStringBody g cs with
          | error e => rw [hsb] at h; exact absurd h (by simp)
          | ok p =>
            obtain ⟨k, r1⟩ := p
            rw [hsb] at h
            rw [parseStringBody_append g cs k r1 hsb ys]
            dsimp only at h ⊢
            cases hsw2 : skipWs r1 with
            | nil => rw [hsw2] at h; exact absurd h (by simp)
            | cons c2 r2 =>
              rw [hsw2] at h
              rw [skipWs_append_cons hsw2]
              dsimp only at h ⊢
              by_cases hcol : c2 = ':'
              · rw [if_pos hcol] at h ⊢
                cases hpv : parseValue g r2 with
                | error e => rw [hpv] at h; exact absurd h (by simp)
                | ok q =>
                  obtain ⟨v, r3⟩ := q
                  rw [hpv] at h
                  dsimp only at h
                  cases hsw3 : skipWs r3 with
                  | nil => rw [hsw3] at h; exact absurd h (by simp)
                  | cons c3 r4 =>
                    have hr3 : r3 ≠ [] := skipWs_ne_nil_cons hsw3
                    rw [(ih r2 ys).1 v r3 hpv (Or.inl hr3)]
                    dsimp only
                    rw [hsw3] at h
                    rw [skipWs_append_cons hsw3]
                    dsimp only at h ⊢
                    by_cases hcm : c3 = ','
                    · rw [if_pos hcm] at h ⊢
                      cases hoi : parseObjectItems g r4 with
                      | error e => rw [hoi] at h; exact absurd h (by simp)
                      | ok q2 =>
                        obtain ⟨kvs2, r5⟩ := q2
                        rw [hoi] at h
                        rw [(ih r4 ys).2.2 kvs2 r5 hoi]
                        dsimp only at h ⊢
                        simp only [Except.ok.injEq, Prod.mk.injEq] at h ⊢
                        obtain ⟨h1, h2⟩ := h
                        subst h1
                        subst h2
                        exact ⟨rfl, rfl⟩
                    · rw [if_neg hcm] at h ⊢
                      by_cases hbc : c3 = '\x7d'
                      · rw [if_pos hbc] at h ⊢
                        simp only [Except.ok.injEq, Prod.mk.injEq] at h ⊢
                        obtain ⟨h1, h2⟩ := h
                        subst h1
                        subst h2
                        exact ⟨rfl, rfl⟩
                      · rw [if_neg hbc] at h
                        exact absurd h (by simp)
              · rw [if_neg hcol] at h
                exact absurd h (by simp)
        · rw [if_neg hq] at h
          exact absurd h (by simp)

/-! ### Lemmas about the whole-document entry point -/

theorem parseValue_wsLeft {w : List Char} (hw : ∀ c ∈ w, isWs c = true)
    (g : Nat) (xs : List Char) :
    parseValue (g + 1) (w ++ xs) = parseValue (g + 1) xs := by
  simp only [parseValue]
  rw [skipWs_wsLeft hw]

theorem headNotNumberish_of_allWs {w : List Char}
    (hw : ∀ c ∈ w, isWs c = true) : headNotNumberish w := by
  cases w with
  | nil => trivial
  | cons c t =>
    have hc : isWs c = true := hw c (by simp)
    simp only [headNotNumberish]
    simp only [isWs, Bool.or_eq_true, decide_eq_true_eq] at hc
    rcases hc with ((hc | hc) | hc) | hc <;> subst hc <;> decide

theorem from_strAux_ok_inv {T : Type} {decode : JsonValue → Except SerdeError T}
    {xs : List Char} {t : T} (h : from_strAux decode xs = .ok t) :
    ∃ v rest, parseValue (jsonFuel xs) xs = .ok (v, rest) ∧
      skipWs rest = [] ∧ decode v = .ok t := by
  unfold from_strAux at h
  cases hpv : parseValue (jsonFuel xs) xs with
  | error e => rw [hpv] at h; exact absurd h (by simp)
  | ok q =>
    obtain ⟨v, rest⟩ := q
    rw [hpv] at h
    dsimp only at h
    cases hsw : skipWs rest with
    | nil =>
      rw [hsw] at h
      exact ⟨v, rest, rfl, hsw, h⟩
    | cons a b => rw [hsw] at h; exact absurd h (by simp)

theorem jsonFuel_succ (xs : List Char) : jsonFuel xs = (3 * xs.length + 2) + 1 := by
  simp [jsonFuel]

theorem from_strAux_ws_pad {T : Type} (decode : JsonValue → Except SerdeError T)
    (xs w1 w2 : List Char) (t : T)
    (h : from_strAux decode xs = .ok t)
    (hw1 : ∀ c ∈ w1, isWs c = true) (hw2 : ∀ c ∈ w2, isWs c = true) :
    from_strAux decode (w1 ++ xs ++ w2) = .ok t := by
  obtain ⟨v, rest, hpv, hrest, hdec⟩ := from_strAux_ok_inv h
  have hlen : jsonFuel (w1 ++ (xs ++ w2)) =
      (3 * (w1 ++ (xs ++ w2)).length + 2) + 1 := jsonFuel_succ _
  have hle : jsonFuel xs ≤ jsonFuel (w1 ++ (xs ++ w2)) := by
    simp only [jsonFuel, List.length_append]
    omega
  have hpv2 := (parse_mono (jsonFuel xs) (jsonFuel (w1 ++ (xs ++ w2))) hle xs).1 v rest hpv
  have hext := (parse_append (jsonFuel (w1 ++ (xs ++ w2))) xs w2).1 v rest hpv2
    (Or.inr (Or.inr (headNotNumberish_of_allWs hw2)))
  have hful : parseValue (jsonFuel (w1 ++ (xs ++ w2))) (w1 ++ (xs ++ w2)) =
      .ok (v, rest ++ w2) := by
    rw [hlen, parseValue_wsLeft hw1, ← hlen]
    exact hext
  unfold from_strAux
  rw [List.append_assoc, hful]
  dsimp only
  rw [skipWs_append_of_nil hrest w2, skipWs_eq_nil_of_allWs hw2]
  exact hdec

theorem decodeListString_ok_not_num {v : JsonValue} {l : List String}
    (h : decodeListString v = .ok l) : ∀ lex, v ≠ .num lex := by
  intro lex hv
  subst hv
  simp [decodeListString] at h

theorem from_strAux_trailing {T : Type} (decode : JsonValue → Except SerdeError T)
    (xs : List Char) (t : T) (c : Char) (tl : List Char)
    (h : from_strAux decode xs = .ok t) (hc : isWs c = false)
    (hnum : ∀ v rest, parseValue (jsonFuel xs) xs = .ok (v, rest) →
      ∀ lex, v ≠ .num lex) :
    from_strAux decode (xs ++ (c :: tl)) =
      .error .trailingCharacters := by
  obtain ⟨v, rest, hpv, hrest, hdec⟩ := from_strAux_ok_inv h
  have hle : jsonFuel xs ≤ jsonFuel (xs ++ (c :: tl)) := by
    simp only [jsonFuel, List.length_append]
    omega
  have hpv2 : parseValue (jsonFuel (xs ++ (c :: tl))) xs = .ok (v, rest) :=
    (parse_mono (jsonFuel xs) (jsonFuel (xs ++ (c :: tl))) hle xs).1 v rest hpv
  have hext : parseValue (jsonFuel (xs ++ (c :: tl))) (xs ++ (c :: tl)) =
      .ok (v, rest ++ (c :: tl)) :=
    (parse_append (jsonFuel (xs ++ (c :: tl))) xs (c :: tl)).1 v rest hpv2
      (Or.inr (Or.inl (hnum v rest hpv)))
  unfold from_strAux
  rw [hext]
  dsimp only
  rw [skipWs_append_of_nil hrest (c :: tl)]
  rw [skipWs]
  rw [if_neg (by simp [hc])]

theorem from_json_ok_inv {T : Type} {decode : JsonValue → Except SerdeError T}
    {s : String} {t : T} (h : from_json decode s = .ok t) :
    from_str decode s = .ok t := by
  unfold from_json at h
  cases hf : from_str decode s with
  | ok u =>
    rw [hf] at h
    dsimp only at h
    injection h with h1
    rw [h1]
  | error e => rw [hf] at h; simp at h

/-! ## The claims -/

/-- C1: for every syntactically valid JSON string whose structure matches the
target type's shape (that is, every string the codec decodes successfully),
`from_json` returns success with the decoded value unchanged; in particular
parsing `["1","2","3"]` as a sequence of strings yields exactly the three
elements `"1"`, `"2"`, `"3"` in that order. -/
theorem C1_parse_valid_json :
    (∀ (T : Type) (decode : JsonValue → Except SerdeError T) (s : String) (t : T),
        from_str decode s = .ok t → from_json decode s = .ok t) ∧
    from_json decodeListString "[\"1\",\"2\",\"3\"]" = .ok ["1", "2", "3"] := by
  constructor
  · intro T decode s t h
    unfold from_json
    rw [h]
  · rfl

/-- Witness for C1 at a concrete input. -/
theorem C1_parse_valid_json_witness :
    from_json decodeListString "[\"7\"]" = .ok ["7"] :=
  C1_parse_valid_json.1 _ decodeListString "[\"7\"]" ["7"] (by rfl)

/-- C2: for a syntactically invalid JSON string such as `[1,2,` the parse
fails with a `ParseJson` error, and in general a successful parse of a
strict prefix of the input never yields success: any leftover non-whitespace
input forces a `ParseJson` failure (the valid prefix is not accepted). -/
theorem C2_parse_invalid_json :
    from_json decodeListString "[1,2," =
      .error (Error.ParseJson .eofWhileParsingValue) ∧
    (∀ (T : Type) (decode : JsonValue → Except SerdeError T) (s : String)
        (v : JsonValue) (rest : List Char),
        parseValue (jsonFuel s.data) s.data = .ok (v, rest) →
        skipWs rest ≠ [] →
        from_json decode s = .error (Error.ParseJson .trailingCharacters)) := by
  constructor
  · rfl
  · intro T decode s v rest hpv hne
    unfold from_json from_str from_strAux
    rw [hpv]
    dsimp only
    cases hsw : skipWs rest with
    | nil => exact absurd hsw hne
    | cons a b => rfl

/-- Witness for C2's partial-prefix rejection at a concrete input: `[]` is a
complete document but `[] x` is rejected rather than partially accepted. -/
theorem C2_parse_invalid_json_witness :
    from_json decodeListString "[] x" =
      .error (Error.ParseJson .trailingCharacters) :=
  C2_parse_invalid_json.2 _ decodeListString "[] x" (.arr []) [' ', 'x']
    (by rfl) (by decide)

/-- C3: for a syntactically valid JSON string whose structure does not match
the target type (such as `{"a":1}` decoded as a sequence of strings),
`from_json` fails with a `ParseJson` error; in general a decode failure on
the parsed document is wrapped in `ParseJson`. -/
theorem C3_parse_mismatched_json :
    from_json decodeListString "\x7b\"a\":1\x7d" =
      .error (Error.ParseJson .invalidType) ∧
    (∀ (T : Type) (decode : JsonValue → Except SerdeError T) (s : String)
        (v : JsonValue) (rest : List Char) (e : SerdeError),
        parseValue (jsonFuel s.data) s.data = .ok (v, rest) →
        skipWs rest = [] →
        decode v = .error e →
        from_json decode s = .error (Error.ParseJson e)) := by
  constructor
  · rfl
  · intro T decode s v rest e hpv hnil hdec
    unfold from_json from_str from_strAux
    rw [hpv]
    dsimp only
    rw [hnil]
    dsimp only
    rw [hdec]

/-- Witness for C3's generic decode-failure wrapping at a concrete input:
the number document `1` decoded as a sequence of strings. -/
theorem C3_parse_mismatched_json_witness :
    from_json decodeListString "1" = .error (Error.ParseJson .invalidType) :=
  C3_parse_mismatched_json.2 _ decodeListString "1" (.num "1") []
    .invalidType (by rfl) (by rfl) (by rfl)

/-- C4: whenever the transport completes the request without a
transport-level error, `fetch` returns success with the decoded body text,
for every HTTP status code — non-2xx responses are not special-cased. -/
theorem C4_fetch_any_status (status : Nat) (body : String) :
    fetch (.ok ⟨status, .ok body⟩) = .ok body := rfl

/-- C5: every failure of `fetch` — request failure or body-read failure —
carries the `Network` variant (hence never the `ParseJson` variant). -/
theorem C5_fetch_failure_is_network :
    ∀ (getResult : Except ReqwestError Response) (e : Error),
      fetch getResult = .error e → ∃ re, e = Error.Network re := by
  intro g e h
  cases g with
  | error re =>
    simp only [fetch] at h
    injection h with h1
    exact ⟨re, h1.symm⟩
  | ok response =>
    simp only [fetch] at h
    cases htr : response.textResult with
    | ok data => rw [htr] at h; simp at h
    | error re =>
      rw [htr] at h
      injection h with h1
      exact ⟨re, h1.symm⟩

/-- Witness for C5 at a concrete failing transport outcome. -/
theorem C5_fetch_failure_is_network_witness :
    ∃ re, Error.Network (ReqwestError.mk 7) = Error.Network re :=
  C5_fetch_failure_is_network (.error ⟨7⟩) (Error.Network ⟨7⟩) rfl

/-- C6: the error type is a closed sum with exactly the variants `Network`
and `ParseJson`, and both `fetch` and `from_json` wrap the underlying
library's error value unmodified. -/
theorem C6_error_surface :
    (∀ err : Error,
        (∃ e, err = Error.Network e) ∨ (∃ e, err = Error.ParseJson e)) ∧
    (∀ e : ReqwestError, fetch (.error e) = .error (Error.Network e)) ∧
    (∀ (status : Nat) (e : ReqwestError),
        fetch (.ok ⟨status, .error e⟩) = .error (Error.Network e)) ∧
    (∀ (T : Type) (decode : JsonValue → Except SerdeError T) (s : String)
        (e : SerdeError),
        from_str decode s = .error e →
        from_json decode s = .error (Error.ParseJson e)) := by
  refine ⟨?_, ?_, ?_, ?_⟩
  · intro err
    cases err with
    | Network e => exact Or.inl ⟨e, rfl⟩
    | ParseJson e => exact Or.inr ⟨e, rfl⟩
  · intro e
    rfl
  · intro status e
    rfl
  · intro T decode s e h
    unfold from_json
    rw [h]

/-- Witness for C6's `from_json` wrapping at a concrete input. -/
theorem C6_error_surface_witness :
    from_json decodeListString "[" =
      .error (Error.ParseJson .eofWhileParsingValue) :=
  C6_error_surface.2.2.2 _ decodeListString "[" .eofWhileParsingValue (by rfl)

/-- C7: `from_json` is a pure, deterministic function of its input: equal
inputs give equal outcomes, the result of each call in a batch equals the
result of the same call made alone (no cross-call interference), and
reordering independent calls permutes the results accordingly. -/
theorem C7_from_json_pure :
    (∀ (T : Type) (decode : JsonValue → Except SerdeError T) (s1 s2 : String),
        s1 = s2 → from_json decode s1 = from_json decode s2) ∧
    (∀ (T : Type) (decode : JsonValue → Except SerdeError T)
        (inputs : List String) (i : Nat) (hi : i < inputs.length),
        (inputs.map (from_json decode)).get ⟨i, by simpa using hi⟩ =
          from_json decode (inputs.get ⟨i, hi⟩)) ∧
    (∀ (T : Type) (decode : JsonValue → Except SerdeError T)
        (l1 l2 : List String), l1.Perm l2 →
        (l1.map (from_json decode)).Perm (l2.map (from_json decode))) := by
  refine ⟨?_, ?_, ?_⟩
  · intro T decode s1 s2 h
    rw [h]
  · intro T decode inputs i hi
    simp [List.get_eq_getElem, List.getElem_map]
  · intro T decode l1 l2 h
    exact h.map (from_json decode)

/-- Witness for C7 at concrete inputs. -/
theorem C7_from_json_pure_witness :
    from_json decodeListString "[]" = from_json decodeListString "[]" ∧
    (["[]"].map (from_json decodeListString)).get ⟨0, by decide⟩ =
      from_json decodeListString "[]" ∧
    ((["[\"a\"]", "x"].map (from_json decodeListString)).Perm
      (["x", "[\"a\"]"].map (from_json decodeListString))) :=
  ⟨C7_from_json_pure.1 _ decodeListString "[]" "[]" rfl,
   C7_from_json_pure.2.1 _ decodeListString ["[]"] 0 (by decide),
   C7_from_json_pure.2.2 _ decodeListString ["[\"a\"]", "x"] ["x", "[\"a\"]"]
     (List.Perm.swap _ _ _)⟩

/-- C8: when the transport completes a request whose response body is empty,
`fetch` returns success carrying the empty string rather than an error (the
doc comment's claim that it fails when the response has no body does not
match the code, which has no such check). -/
theorem C8_fetch_empty_body (status : Nat) :
    fetch (.ok ⟨status, .ok ""⟩) = .ok "" := rfl

/-- C9: `from_json` is total: for every input string and every decodable
target type it returns either success or a `ParseJson`-wrapped failure. -/
theorem C9_from_json_total (T : Type) (decode : JsonValue → Except SerdeError T)
    (s : String) :
    (∃ t, from_json decode s = .ok t) ∨
    (∃ e, from_json decode s = .error (Error.ParseJson e)) := by
  unfold from_json
  cases h : from_str decode s with
  | ok t => exact Or.inl ⟨t, rfl⟩
  | error e => exact Or.inr ⟨e, rfl⟩

/-- C10 (amended): `from_json` accepts leading and trailing whitespace
around the document, and rejects trailing non-whitespace input with a
`ParseJson` error unless the trailing characters merge with the document's
final token into a different single document — which is possible only when
the document is itself a number token (see the counterexample).  The second
conjunct proves the rejection for every decodable target whose successfully
parsed document is not a number token; the third instantiates it for the
sequence-of-strings target, whose documents end in `]`, with no side
condition. -/
theorem C10_whole_input :
    (∀ (T : Type) (decode : JsonValue → Except SerdeError T)
        (w1 s w2 : String) (t : T),
        (∀ c ∈ w1.data, isWs c = true) → (∀ c ∈ w2.data, isWs c = true) →
        from_json decode s = .ok t →
        from_json decode (w1 ++ s ++ w2) = .ok t) ∧
    (∀ (T : Type) (decode : JsonValue → Except SerdeError T) (s : String)
        (t : T) (c : Char) (tl : List Char),
        from_json decode s = .ok t → isWs c = false →
        (∀ v rest, parseValue (jsonFuel s.data) s.data = .ok (v, rest) →
          ∀ lex, v ≠ .num lex) →
        from_json decode (s ++ String.mk (c :: tl)) =
          .error (Error.ParseJson .trailingCharacters)) ∧
    (∀ (s : String) (l : List String) (c : Char) (t : List Char),
        from_json decodeListString s = .ok l → isWs c = false →
        from_json decodeListString (s ++ String.mk (c :: t)) =
          .error (Error.ParseJson .trailingCharacters)) := by
  refine ⟨?_, ?_, ?_⟩
  · intro T decode w1 s w2 t hw1 hw2 h
    have hs : from_str decode s = .ok t := from_json_ok_inv h
    unfold from_json from_str
    rw [String.data_append, String.data_append]
    rw [from_strAux_ws_pad decode s.data w1.data w2.data t hs hw1 hw2]
  · intro T decode s t c tl h hc hnum
    have hs : from_str decode s = .ok t := from_json_ok_inv h
    unfold from_json from_str
    rw [String.data_append]
    rw [from_strAux_trailing decode s.data t c tl hs hc hnum]
  · intro s l c t h hc
    have hs : from_str decodeListString s = .ok l := from_json_ok_inv h
    have hnum : ∀ v rest, parseValue (jsonFuel s.data) s.data = .ok (v, rest) →
        ∀ lex, v ≠ .num lex := by
      intro v rest hpv lex hveq
      obtain ⟨v0, rest0, hpv0, hrest0, hdec0⟩ := from_strAux_ok_inv hs
      rw [hpv0] at hpv
      injection hpv with h1
      injection h1 with h2 h3
      exact decodeListString_ok_not_num hdec0 lex (h2.trans hveq)
    unfold from_json from_str
    rw [String.data_append]
    rw [from_strAux_trailing decodeListString s.data l c t hs hc hnum]

/-- Witness for C10 at concrete inputs: whitespace padding of an array
document; trailing rejection after a top-level string document (a
non-number, non-array target); and trailing rejection after an array of
strings. -/
theorem C10_whole_input_witness :
    from_json decodeListString (" " ++ "[\"1\"]" ++ "\n") = .ok ["1"] ∧
    from_json decodeString ("\"a\"" ++ String.mk ['x']) =
      .error (Error.ParseJson .trailingCharacters) ∧
    from_json decodeListString ("[\"1\"]" ++ String.mk ['x']) =
      .error (Error.ParseJson .trailingCharacters) :=
  ⟨C10_whole_input.1 _ decodeListString " " "[\"1\"]" "\n" ["1"]
     (by decide) (by decide) (by rfl),
   C10_whole_input.2.1 _ decodeString "\"a\"" "a" 'x' [] (by rfl) (by rfl)
     (by
       intro v rest hpv lex hveq
       rw [hveq] at hpv
       have h0 : parseValue (jsonFuel ("\"a\"" : String).data)
           ("\"a\"" : String).data = .ok (.str "a", []) := by rfl
       rw [h0] at hpv
       exact absurd hpv (by simp)),
   C10_whole_input.2.2 "[\"1\"]" ["1"] 'x' [] (by rfl) (by rfl)⟩

/-- C10 counterexample to the claim as stated: `1` is a valid JSON document
for the decodable target type `serde_json::Number`, `2` is a trailing
non-whitespace character, yet parsing the combined input `12` succeeds (as
the number 12) instead of failing with a `ParseJson` error — the trailing
digit merges with the number token. -/
theorem C10_counterexample :
    from_json decodeNumberLexeme "1" = .ok "1" ∧
    isWs '2' = false ∧
    (from_json decodeNumberLexeme "12").isOk = true :=
  ⟨rfl, rfl, rfl⟩

end JsLib
